import Mathlib

/-!
Shallow embedding of `src/pwgen.py` (pwgen-lite).

Bytes are `Nat` values below 256, 32-bit words are `Nat` values reduced
modulo 2^32, Python `int` is `Int`/`Nat`, Python `float` arithmetic on the
estimator side is modelled exactly (rationals, with an explicit `inf`
constructor mirroring `float("inf")`), and strings are Lean `String`s.
`hmac.new(key, msg, sha256).digest()` is embedded as a full executable
HMAC-SHA-256 over byte lists.  Loops that Python runs unboundedly
(`while` with data-dependent exit) take an explicit fuel argument.
-/

namespace Pwgen

/-- Reduce modulo 2^32 (Python bytes/ints inside SHA-256 stay in 32 bits). -/
def w32 (x : Nat) : Nat := x % 4294967296

/-- Rotate the 32-bit word `x` right by `n` bit positions. -/
def rotr32 (n x : Nat) : Nat := w32 ((x >>> n) ||| (x <<< (32 - n)))

/-- Bitwise complement within 32 bits. -/
def not32 (x : Nat) : Nat := x ^^^ 4294967295

def bigSigma0 (x : Nat) : Nat := rotr32 2 x ^^^ rotr32 13 x ^^^ rotr32 22 x

def bigSigma1 (x : Nat) : Nat := rotr32 6 x ^^^ rotr32 11 x ^^^ rotr32 25 x

def smallSigma0 (x : Nat) : Nat := rotr32 7 x ^^^ rotr32 18 x ^^^ (x >>> 3)

def smallSigma1 (x : Nat) : Nat := rotr32 17 x ^^^ rotr32 19 x ^^^ (x >>> 10)

def chFn (x y z : Nat) : Nat := (x &&& y) ^^^ (not32 x &&& z)

def majFn (x y z : Nat) : Nat := (x &&& y) ^^^ (x &&& z) ^^^ (y &&& z)

/-- Round constant table of SHA-256 (FIPS 180-4), written in decimal. -/
def roundK : List Nat :=
  [1116352408, 1899447441, 3049323471, 3921009573,
   961987163, 1508970993, 2453635748, 2870763221,
   3624381080, 310598401, 607225278, 1426881987,
   1925078388, 2162078206, 2614888103, 3248222580,
   3835390401, 4022224774, 264347078, 604807628,
   770255983, 1249150122, 1555081692, 1996064986,
   2554220882, 2821834349, 2952996808, 3210313671,
   3336571891, 3584528711, 113926993, 338241895,
   666307205, 773529912, 1294757372, 1396182291,
   1695183700, 1986661051, 2177026350, 2456956037,
   2730485921, 2820302411, 3259730800, 3345764771,
   3516065817, 3600352804, 4094571909, 275423344,
   430227734, 506948616, 659060556, 883997877,
   958139571, 1322822218, 1537002063, 1747873779,
   1955562222, 2024104815, 2227730452, 2361852424,
   2428436474, 2756734187, 3204031479, 3329325298]

/-- The eight 32-bit working variables of the SHA-256 compression function. -/
structure Hash8 where
  a : Nat
  b : Nat
  c : Nat
  d : Nat
  e : Nat
  f : Nat
  g : Nat
  h : Nat

/-- Initial hash value of SHA-256 (FIPS 180-4), written in decimal. -/
def initH : Hash8 :=
  ⟨1779033703, 3144134277, 1013904242, 2773480762,
   1359893119, 2600822924, 528734635, 1541459225⟩

/-- Next word of the message schedule, from the words produced so far. -/
def schedStep (w : List Nat) : Nat :=
  w32 (smallSigma1 (w.getD (w.length - 2) 0) + w.getD (w.length - 7) 0 +
       smallSigma0 (w.getD (w.length - 15) 0) + w.getD (w.length - 16) 0)

/-- Extend the 16 block words by `k` further schedule words. -/
def extendSched (w : List Nat) : Nat → List Nat
  | 0 => w
  | k+1 => extendSched (w ++ [schedStep w]) k

/-- One SHA-256 round: absorb one constant/schedule-word pair. -/
def roundFn (s : Hash8) (kw : Nat × Nat) : Hash8 :=
  let t1 := w32 (s.h + bigSigma1 s.e + chFn s.e s.f s.g + kw.1 + kw.2)
  let t2 := w32 (bigSigma0 s.a + majFn s.a s.b s.c)
  ⟨w32 (t1 + t2), s.a, s.b, s.c, w32 (s.d + t1), s.e, s.f, s.g⟩

/-- SHA-256 compression function on one 16-word block. -/
def compress (s : Hash8) (block : List Nat) : Hash8 :=
  let w := extendSched block 48
  let t := (roundK.zip w).foldl roundFn s
  ⟨w32 (s.a + t.a), w32 (s.b + t.b), w32 (s.c + t.c), w32 (s.d + t.d),
   w32 (s.e + t.e), w32 (s.f + t.f), w32 (s.g + t.g), w32 (s.h + t.h)⟩

/-- Group bytes into big-endian 32-bit words (input length a multiple of 4). -/
def bytesToWords : Nat → List Nat → List Nat
  | 0, _ => []
  | fuel+1, b0 :: b1 :: b2 :: b3 :: rest =>
      (((b0 * 256 + b1) * 256 + b2) * 256 + b3) :: bytesToWords fuel rest
  | _+1, _ => []

/-- Big-endian bytes of one 32-bit word. -/
def wordToBytes (x : Nat) : List Nat :=
  [(x >>> 24) &&& 255, (x >>> 16) &&& 255, (x >>> 8) &&& 255, x &&& 255]

def wordsToBytes (ws : List Nat) : List Nat :=
  ws.foldr (fun x acc => wordToBytes x ++ acc) []

/-- Big-endian encoding of `x` on `k` bytes (Python `x.to_bytes(k, "big")`). -/
def beBytes : Nat → Nat → List Nat
  | 0, _ => []
  | k+1, x => beBytes k (x / 256) ++ [x % 256]

/-- SHA-256 padding: append 0x80, zeros, and the 64-bit bit length. -/
def sha256Pad (msg : List Nat) : List Nat :=
  let L := msg.length
  msg ++ [128] ++ List.replicate ((119 - L % 64) % 64) 0 ++ beBytes 8 (8 * L)

/-- Split a byte list into 64-byte blocks (fuel bounds the recursion). -/
def chunks64 : Nat → List Nat → List (List Nat)
  | 0, _ => []
  | _+1, [] => []
  | fuel+1, x :: l => (x :: l).take 64 :: chunks64 fuel ((x :: l).drop 64)

/-- Full SHA-256 digest of a byte list, as 32 bytes. -/
def sha256 (msg : List Nat) : List Nat :=
  let padded := sha256Pad msg
  let final := (chunks64 padded.length padded).foldl
    (fun s blk => compress s (bytesToWords 16 blk)) initH
  wordsToBytes [final.a, final.b, final.c, final.d,
                final.e, final.f, final.g, final.h]

/-- HMAC-SHA-256 (Python `hmac.new(key, msg, sha256).digest()`). -/
def hmacSha256 (key msg : List Nat) : List Nat :=
  let k0 := if 64 < key.length then sha256 key ++ List.replicate 32 0
            else key ++ List.replicate (64 - key.length) 0
  let ipadK := k0.map (fun b => b ^^^ 54)
  let opadK := k0.map (fun b => b ^^^ 92)
  sha256 (opadK ++ sha256 (ipadK ++ msg))

/-- Default context tag of `HmacRng`: the bytes of `b"pwgen-lite-hmac"`. -/
def defaultContext : List Nat :=
  [112, 119, 103, 101, 110, 45, 108, 105, 116, 101, 45, 104, 109, 97, 99]

/-- State of `HmacRng` (src/pwgen.py lines 22-33): key, context tag and
the block counter, which starts at 0. -/
structure HmacRng where
  key : List Nat
  context : List Nat
  counter : Nat
deriving DecidableEq

/-- One block of the generator: `hmac.new(key, counter_be64 + context,
sha256).digest()` (src/pwgen.py lines 38-39). -/
def hmacBlock (key ctx : List Nat) (counter : Nat) : List Nat :=
  hmacSha256 key (beBytes 8 counter ++ ctx)

/-- The `while len(out) < n` loop of `HmacRng.randbytes`: append whole
HMAC blocks, incrementing the counter, until `n` bytes are available.
Each block contributes 32 bytes, so `n` rounds of fuel always suffice. -/
def rbLoop (key ctx : List Nat) (n : Nat) : Nat → Nat → List Nat → List Nat × Nat
  | 0, c, out => (out, c)
  | fuel+1, c, out =>
      if out.length < n then rbLoop key ctx n fuel (c + 1) (out ++ hmacBlock key ctx c)
      else (out, c)

/-- Embedding of `HmacRng.randbytes(n)` (src/pwgen.py lines 35-42): generate fresh
blocks from the current counter and return the first `n` bytes
(`bytes(out[:n])`); the rest of the last block is not retained. -/
def randbytes (r : HmacRng) (n : Nat) : List Nat × HmacRng :=
  let p := rbLoop r.key r.context n n r.counter []
  (p.1.take n, ⟨r.key, r.context, p.2⟩)

/-- Python `string.ascii_letters`: lowercase then uppercase ASCII letters. -/
def ascii_letters : String := "abcdefghijklmnopqrstuvwxyzABCDEFGHIJKLMNOPQRSTUVWXYZ"

/-- Python `string.digits`. -/
def digitsStr : String := "0123456789"

/-- The constant `BASE_ALPHABET = string.ascii_letters + string.digits` (line 129). -/
def BASE_ALPHABET : String := ascii_letters ++ digitsStr

/-- The symbol set literal of src/pwgen.py line 130. -/
def SYMBOLS : String := "!@#$%^&*()-_=+[]\x7b\x7d|;:,.<>?/~`"

/-- Python `s.replace(ch, "")`: drop every occurrence of one character. -/
def replaceChar (s : String) (c : Char) : String :=
  ⟨s.data.filter (fun x => x ≠ c)⟩

/-- Embedding of `build_alphabet` (src/pwgen.py lines 121-126). -/
def build_alphabet (use_symbols exclude_ambiguous : Bool) : String :=
  let alphabet := BASE_ALPHABET ++ (if use_symbols then SYMBOLS else "")
  if exclude_ambiguous then "O0Il1".data.foldl replaceChar alphabet else alphabet

/-- Failure modes of the embedded `bytes_to_password_hmac`: the
`ValueError` raised for a too small alphabet, and exhaustion of the fuel
bounding the rejection loop (an artifact of the embedding). -/
inductive PwError where
  | alphabetTooSmall : PwError
  | outOfFuel : PwError
deriving DecidableEq

/-- The limit `(256 // alph_len) * alph_len` of src/pwgen.py line 110. -/
def samplingLimit (alph_len : Nat) : Nat := (256 / alph_len) * alph_len

/-- The `while len(chars) < length` rejection-sampling loop of
`bytes_to_password_hmac` (src/pwgen.py lines 112-117): draw one byte per
round via `rng.randbytes(1)[0]`, skip it if `b >= limit`, otherwise
append `alphabet[b % alph_len]`. -/
def pwLoop (alphabet : List Char) (limit : Nat) (length : Nat) :
    Nat → List Char → HmacRng → Except PwError (List Char × HmacRng)
  | 0, chars, r =>
      if chars.length < length then .error .outOfFuel else .ok (chars, r)
  | fuel+1, chars, r =>
      if chars.length < length then
        let p := randbytes r 1
        let b := p.1.headD 0
        if limit ≤ b then pwLoop alphabet limit length fuel chars p.2
        else pwLoop alphabet limit length fuel
          (chars ++ [alphabet.getD (b % alphabet.length) ' ']) p.2
      else .ok (chars, r)

/-- Embedding of `bytes_to_password_hmac` (src/pwgen.py lines 101-119).  The mutated
`rng` is returned alongside the password to make the state explicit. -/
def bytes_to_password_hmac (fuel : Nat) (length : Nat) (alphabet : String)
    (rng : HmacRng) : Except PwError (String × HmacRng) :=
  let alph_len := alphabet.length
  if alph_len < 2 then .error .alphabetTooSmall
  else
    match pwLoop alphabet.data (samplingLimit alph_len) length fuel [] rng with
    | .error e => .error e
    | .ok (chars, r) => .ok (⟨chars⟩, r)

/-- Embedding of `generate_password` (src/pwgen.py lines 132-138).  The call
`secrets.choice(alphabet)` consumes the operating system's secure source,
an external capability (spec section 1); it is modelled by an oracle
`choice` giving the index picked at each draw, which the capability
contract constrains to `< alphabet.length`. -/
def generate_password (length : Nat) (use_symbols exclude_ambiguous : Bool)
    (choice : Nat → Nat) : String :=
  let alphabet := build_alphabet use_symbols exclude_ambiguous
  ⟨(List.range length).map (fun i => alphabet.data.getD (choice i) ' ')⟩

/-- Embedding of `generate_password_hmac` (src/pwgen.py lines 140-146): builds the
alphabet, constructs a fresh `HmacRng(seed)` with counter 0, and runs
`bytes_to_password_hmac`. -/
def generate_password_hmac (fuel length : Nat) (use_symbols exclude_ambiguous : Bool)
    (seed : List Nat) : Except PwError String :=
  let alphabet := build_alphabet use_symbols exclude_ambiguous
  let rng : HmacRng := ⟨seed, defaultContext, 0⟩
  (bytes_to_password_hmac fuel length alphabet rng).map Prod.fst

/-- Value of a Python float expression that is either finite or
`float("inf")`; the finite values reached by the estimator are exact
binary fractions or exactly modelled rationals. -/
inductive FloatVal where
  | inf : FloatVal
  | fin (q : ℚ) : FloatVal
deriving DecidableEq

/-- Python exceptions on the estimator path.  CPython raises
`OverflowError` when an `int` too large for a double is converted to
`float`, which happens inside `length * math.log2(...)` (the `length`
operand is converted) and inside `0.5 * search_space` (the
`search_space` operand is converted).  Float-on-float arithmetic never
raises (overflow there produces `inf`), and `math.log2` accepts
arbitrarily large ints. -/
inductive PyError where
  | overflowError : PyError
deriving DecidableEq

/-- Smallest nonnegative integer whose conversion to a CPython float
(IEEE-754 binary64, round half to even) overflows: integers at or above
`2^1024 - 2^970` round to infinity and raise `OverflowError`; integers
below it round to at most the largest finite double `2^1024 - 2^971`.
Written as a literal so that comparisons evaluate;
`floatConvBound_eq` proves it equal to `2^1024 - 2^970`. -/
def floatConvBound : Int := 179769313486231580793728971405303415079934132710037826936173778980444968292764750946649017977587207096330286416692887910946555547851940402630657488671505820681908902000708383676273854845817711531764475730270069855571366959622842914819860834936475292719074168444365510704342711559699508093042880177904174497792

/-- Embedding of `estimate_entropy_bits` (src/pwgen.py lines 44-51); `math.log2` is
modelled by the exact real logarithm, hence this one definition is not
executable.  On nondegenerate inputs the source computes
`length * math.log2(alphabet_size)`, which converts `length` to float
and raises `OverflowError` when `length` reaches `floatConvBound`. -/
noncomputable def estimate_entropy_bits (length alphabet_size : Int) :
    Except PyError ℝ :=
  if length ≤ 0 ∨ alphabet_size ≤ 1 then .ok 0
  else if floatConvBound ≤ length then .error .overflowError
  else .ok ((length : ℝ) * Real.logb 2 (alphabet_size : ℝ))

/-- Embedding of `estimate_search_space` (src/pwgen.py lines 53-60); Python integers
are arbitrary precision, so the power is exact and the function total. -/
def estimate_search_space (length alphabet_size : Int) : Int :=
  if length ≤ 0 ∨ alphabet_size ≤ 1 then 0
  else alphabet_size ^ length.toNat

/-- Embedding of `estimate_average_crack_time_seconds` (src/pwgen.py lines 62-70):
`float("inf")` on degenerate inputs, otherwise
`0.5 * search_space / guesses_per_second`, whose first step converts
`search_space` to float and raises `OverflowError` when `search_space`
reaches `floatConvBound`. -/
def estimate_average_crack_time_seconds (search_space : Int)
    (guesses_per_second : ℚ) : Except PyError FloatVal :=
  if search_space ≤ 0 ∨ guesses_per_second ≤ 0 then .ok .inf
  else if floatConvBound ≤ search_space then .error .overflowError
  else .ok (.fin (1/2 * (search_space : ℚ) / guesses_per_second))

/-- Rendering of Python `"%.2f"`-style formatting, modelled on exact
rationals for the nonnegative values reachable here: round to the nearest
hundredth with ties to even, then print with two decimals. -/
def fmt2 (q : ℚ) : String :=
  let p := 100 * q
  let fl := ⌊p⌋
  let fr := p - (fl : ℚ)
  let n := (if fr < 1/2 then fl else if 1/2 < fr then fl + 1
            else if fl % 2 = 0 then fl else fl + 1).toNat
  toString (n / 100) ++ "." ++ (if n % 100 < 10 then "0" else "") ++ toString (n % 100)

/-- The unit table of `format_duration` (src/pwgen.py lines 82-88);
`365.25 * 24 * 3600` is exactly 31557600. -/
def durUnits : List (String × ℚ) :=
  [("year", 31557600), ("day", 86400), ("hour", 3600), ("minute", 60), ("second", 1)]

/-- The `for name, size in units` loop of `format_duration`. -/
def durLoop (seconds : ℚ) : List (String × ℚ) → String
  | [] => fmt2 seconds ++ " seconds"
  | (name, size) :: rest =>
      if size ≤ seconds then
        let value := seconds / size
        if value < 2 then fmt2 value ++ " " ++ name
        else fmt2 value ++ " " ++ name ++ "s"
      else durLoop seconds rest

/-- Embedding of `format_duration` (src/pwgen.py lines 72-97). -/
def format_duration (seconds : FloatVal) : String :=
  match seconds with
  | .inf => "infinite"
  | .fin s => if s < 1 then "< 1 second" else durLoop s durUnits

/-- The `--scenario` choices (src/pwgen.py lines 16-20). -/
inductive Scenario where
  | offline : Scenario
  | offlineFast : Scenario
  | offlineVeryFast : Scenario
deriving DecidableEq

/-- The `SCENARIOS` rate table: 10.0, 1e10 and 1e11 guesses per second. -/
def scenarioRate : Scenario → ℚ
  | .offline => 10
  | .offlineFast => 10000000000
  | .offlineVeryFast => 100000000000

def hexDigit (c : Char) : Option Nat :=
  if '0' ≤ c ∧ c ≤ '9' then some (c.toNat - 48)
  else if 'a' ≤ c ∧ c ≤ 'f' then some (c.toNat - 87)
  else if 'A' ≤ c ∧ c ≤ 'F' then some (c.toNat - 55)
  else none

/-- ASCII whitespace that `bytes.fromhex` ignores between byte pairs. -/
def isPyHexSpace (c : Char) : Bool :=
  c == ' ' || c == '\t' || c == '\n' || c == '\x0b' || c == '\x0c' || c == '\r'

/-- Decode hex-digit pairs, skipping ASCII whitespace between pairs as
`bytes.fromhex` does (the two digits of one byte must be adjacent);
`none` on any other character or on a dangling single digit. -/
def hexPairs : Nat → List Char → Option (List Nat)
  | _, [] => some []
  | 0, _ => none
  | fuel+1, c1 :: rest =>
      if isPyHexSpace c1 then hexPairs fuel rest
      else
        match rest with
        | [] => none
        | c2 :: rest2 => do
            let hi ← hexDigit c1
            let lo ← hexDigit c2
            let t ← hexPairs fuel rest2
            pure ((16 * hi + lo) :: t)

/-- Python `bytes.fromhex` as used on `--seed-hex` values. -/
def bytesFromHex (s : String) : Option (List Nat) := hexPairs s.length s.data

/-- The RNG `--mode` choices. -/
inductive RngMode where
  | secretsMode : RngMode
  | hmacMode : RngMode
deriving DecidableEq

/-- The parsed command line, as produced by `parse_arguments`
(src/pwgen.py lines 148-166); argparse already restricts `mode` and
`scenario` to their choice lists. -/
structure Args where
  length : Int
  count : Int
  symbols : Bool
  exclude_ambiguous : Bool
  mode : RngMode
  seed_hex : Option String
  scenario : Scenario
  rate : Option ℚ
  no_strength : Bool

/-- One printed line of `main`.  The numeric lines carry the computed
values rather than their float-formatted text, since exact float
formatting is presentation-layer behavior outside the embedding. -/
inductive OutLine where
  | errLine (msg : String) : OutLine
  | alphaLine (alph : Nat) : OutLine
  | entropyLine (length : Int) (alph : Nat) : OutLine
  | scenLine (scenario : Scenario) (rate : ℚ) (dur : String) : OutLine
  | blankLine : OutLine
  | pwLine (pw : String) : OutLine
deriving DecidableEq

def isPwLine : OutLine → Bool
  | .pwLine _ => true
  | _ => false

def isStrengthLine : OutLine → Bool
  | .alphaLine _ => true
  | .entropyLine _ _ => true
  | .scenLine _ _ _ => true
  | .blankLine => true
  | _ => false

def errCountMsg : String := "Error: Count must be greater than 0."

def errLengthMsg : String := "Error: Length must be a positive integer."

def errSeedHexMsg : String :=
  "Error: Invalid seed hex string. Must be 64 hex characters for 32 bytes."

def errSeedLenMsg : String := "Error: Seed must be exactly 32 bytes (64 hex characters)."

/-- Final outcome of a `main` run: normal or `SystemExit` termination
with the printed lines and its exit code, or an uncaught Python
exception (traceback on stderr, process exit code 1) with whatever was
printed on stdout before it. -/
inductive RunOutcome where
  | exited (out : List OutLine) (code : Nat) : RunOutcome
  | crashed (out : List OutLine) (e : PyError) : RunOutcome
deriving DecidableEq

def outcomeLines : RunOutcome → List OutLine
  | .exited out _ => out
  | .crashed out _ => out

/-- Exit code of an outcome; an uncaught exception makes CPython exit 1. -/
def outcomeCode : RunOutcome → Nat
  | .exited _ code => code
  | .crashed _ _ => 1

/-- The strength-report block of `main` (src/pwgen.py lines 187-199)
unless `--no-strength` is given: alphabet size, entropy line (carrying
its inputs), scenario line and a blank line.  The entropy, search-space
and crack-time values are all computed (lines 190-194) before the first
line is printed, so an `OverflowError` raised by
`estimate_entropy_bits` (its raise condition is inlined decidably here;
see `entropy_raise_condition`) or by
`estimate_average_crack_time_seconds` aborts the block with no output
at all. -/
def strengthBlock (args : Args) (alphabet : String) : Except PyError (List OutLine) :=
  if args.no_strength then .ok []
  else
    let A : Nat := alphabet.length
    let L := args.length
    if ¬(L ≤ 0 ∨ (A : Int) ≤ 1) ∧ floatConvBound ≤ L then .error .overflowError
    else
      let space := estimate_search_space L (A : Int)
      let rate := args.rate.getD (scenarioRate args.scenario)
      match estimate_average_crack_time_seconds space rate with
      | .error e => .error e
      | .ok avg =>
          .ok [.alphaLine A, .entropyLine L A,
               .scenLine args.scenario rate (format_duration avg), .blankLine]

/-- One secrets-mode password: `"".join(secrets.choice(alphabet) for _ in
range(args.length))` (src/pwgen.py line 223), reading the oracle from
index `start`. -/
def secretsPw (alphabet : List Char) (length : Nat) (choice : Nat → Nat)
    (start : Nat) : String :=
  ⟨(List.range length).map (fun i => alphabet.getD (choice (start + i)) ' ')⟩

/-- The secrets-mode generation loop of `main`. -/
def secretsLoop (alphabet : List Char) (length : Nat) (choice : Nat → Nat) :
    Nat → Nat → List OutLine
  | 0, _ => []
  | k+1, start =>
      .pwLine (secretsPw alphabet length choice start) ::
        secretsLoop alphabet length choice k (start + length)

/-- The hmac-mode generation loop of `main` (src/pwgen.py lines 221-228):
all `count` passwords are drawn from the single shared `rng` stream. -/
def hmacGenLoop (fuel : Nat) (length : Nat) (alphabet : String) :
    Nat → HmacRng → Option (List OutLine)
  | 0, _ => some []
  | k+1, r =>
      match bytes_to_password_hmac fuel length alphabet r with
      | .error _ => none
      | .ok (pw, r') =>
          (hmacGenLoop fuel length alphabet k r').map (fun t => .pwLine pw :: t)

/-- The `--seed-hex` handling of hmac mode (src/pwgen.py lines 204-218,
merged with the generation loop): reject a non-hex or wrongly sized
seed, otherwise build the `HmacRng` and generate.  Factored out of
`mainModel` with the decoded seed as an argument. -/
def hmacSeedRun (strength : List OutLine) (alphabet : String) (L cnt fuel : Nat)
    (sdecoded : Option (List Nat)) : Option RunOutcome :=
  match sdecoded with
  | none => some (.exited (strength ++ [.errLine errSeedHexMsg]) 2)
  | some seed =>
      if seed.length ≠ 32 then some (.exited (strength ++ [.errLine errSeedLenMsg]) 2)
      else
        (hmacGenLoop fuel L alphabet cnt ⟨seed, defaultContext, 0⟩).map
          (fun pws => RunOutcome.exited (strength ++ pws) 0)

/-- Model of `main` (src/pwgen.py lines 168-228).  `choice` is the
secrets oracle, `urandom` the 32 bytes `os.urandom(32)` would return,
`fuel` bounds the rejection-sampling loop.  The result is the run
outcome — printed lines with exit code 0 or 2, or a crash from an
uncaught `OverflowError` in the strength computation — or `none` when
the fuel runs out (an artifact of the embedding only). -/
def mainModel (args : Args) (choice : Nat → Nat) (urandom : List Nat)
    (fuel : Nat) : Option RunOutcome :=
  if args.count ≤ 0 then some (.exited [.errLine errCountMsg] 2)
  else if args.length ≤ 0 then some (.exited [.errLine errLengthMsg] 2)
  else
    let alphabet := build_alphabet args.symbols args.exclude_ambiguous
    match strengthBlock args alphabet with
    | .error e => some (.crashed [] e)
    | .ok strength =>
        match args.mode with
        | .secretsMode =>
            some (.exited (strength ++
              secretsLoop alphabet.data args.length.toNat choice args.count.toNat 0) 0)
        | .hmacMode =>
            match args.seed_hex with
            | some s =>
                hmacSeedRun strength alphabet args.length.toNat args.count.toNat fuel
                  (bytesFromHex s)
            | none =>
                (hmacGenLoop fuel args.length.toNat alphabet args.count.toNat
                    ⟨urandom, defaultContext, 0⟩).map
                  (fun pws => RunOutcome.exited (strength ++ pws) 0)

/-- Run a sequence of `randbytes` calls on one instance, collecting the
returned byte strings (used to compare the streams of two instances). -/
def runCalls : HmacRng → List Nat → List (List Nat)
  | _, [] => []
  | r, n :: ns =>
      let p := randbytes r n
      p.1 :: runCalls p.2 ns

/-- Generate a sequence of passwords of the requested lengths from one
shared `HmacRng`, threading its state, as the `main` loop does. -/
def genSeq (fuel : Nat) (alphabet : String) : HmacRng → List Nat → Except PwError (List String)
  | _, [] => .ok []
  | r, L :: Ls =>
      match bytes_to_password_hmac fuel L alphabet r with
      | .error e => .error e
      | .ok (pw, r') => (genSeq fuel alphabet r' Ls).map (fun t => pw :: t)

/-- Number of 32-byte HMAC blocks `randbytes` generates for an `n`-byte
request: the least `q` with `32 * q >= n`. -/
def needBlocks (m : Nat) : Nat := (m + 31) / 32

/-- Concatenation of `q` consecutive HMAC blocks starting at counter `c`. -/
def blocksConcat (key ctx : List Nat) : Nat → Nat → List Nat
  | _c, 0 => []
  | c, q+1 => hmacBlock key ctx c ++ blocksConcat key ctx (c + 1) q

/-- Tag of an output line, ignoring its payload: used to state which
kinds of lines a run printed without evaluating numeric payloads. -/
inductive LineTag where
  | errT : LineTag
  | alphaT : LineTag
  | entropyT : LineTag
  | scenT : LineTag
  | blankT : LineTag
  | pwT : LineTag
deriving DecidableEq

def lineTag : OutLine → LineTag
  | .errLine _ => .errT
  | .alphaLine _ => .alphaT
  | .entropyLine _ _ => .entropyT
  | .scenLine _ _ _ => .scenT
  | .blankLine => .blankT
  | .pwLine _ => .pwT

/-- Validation of the embedding against the standard SHA-256 test vector
for the empty message. -/
theorem sha256_empty_vector :
    sha256 [] =
      [227, 176, 196, 66, 152, 252, 28, 20, 154, 251, 244, 200, 153, 111,
       185, 36, 39, 174, 65, 228, 100, 155, 147, 76, 164, 149, 153, 27,
       120, 82, 184, 85] := by decide

/-- An in-range `getD` access returns a member of the list. -/
theorem getD_mem_of_lt {α : Type} (l : List α) (n : Nat) (d : α)
    (h : n < l.length) : l.getD n d ∈ l := by
  rw [List.getD_eq_getElem l d h]
  exact List.getElem_mem h

/-- Below a limit that is a multiple `q * n` of the alphabet size, each
residue `i < n` has exactly `q` byte preimages. -/
theorem filter_mod_card (n q i : Nat) (hn : 0 < n) (hi : i < n) :
    ((Finset.range (q * n)).filter (fun b => b % n = i)).card = q := by
  have himg : (Finset.range (q * n)).filter (fun b => b % n = i)
      = (Finset.range q).image (fun k => k * n + i) := by
    ext b
    simp only [Finset.mem_filter, Finset.mem_range, Finset.mem_image]
    constructor
    · rintro ⟨hb, hmod⟩
      refine ⟨b / n, (Nat.div_lt_iff_lt_mul hn).mpr hb, ?_⟩
      rw [← hmod, Nat.mul_comm]
      exact Nat.div_add_mod b n
    · rintro ⟨k, hk, rfl⟩
      refine ⟨?_, ?_⟩
      · calc k * n + i < k * n + n := by omega
          _ = (k + 1) * n := by ring
          _ ≤ q * n := Nat.mul_le_mul_right n (by omega)
      · rw [Nat.add_comm, Nat.add_mul_mod_self_right]
        exact Nat.mod_eq_of_lt hi
  have hinj : Function.Injective (fun k => k * n + i) := by
    intro a b hab
    simp only [] at hab
    exact Nat.eq_of_mul_eq_mul_right hn (by omega)
  rw [himg, Finset.card_image_of_injective _ hinj, Finset.card_range]

/-- C1: one sampling step of `bytes_to_password_hmac` computes
`limit = (256 / n) * n`, discards (and redraws from the updated rng) any
drawn byte at or above the limit, appends `alphabet[b % n]` for the first
accepted byte, always selects an index below `n`, and every index below
`n` has exactly `limit / n = 256 / n` accepted byte preimages, so the
accepted-byte selection is exactly uniform. -/
theorem sampling_step_unbiased (n : Nat) (h2 : 2 ≤ n) (h256 : n ≤ 256) :
    samplingLimit n = 256 / n * n ∧
    (∀ b, b < samplingLimit n → b % n < n) ∧
    (∀ (alphabet : List Char) (L fuel : Nat) (chars : List Char) (r : HmacRng),
        alphabet.length = n → chars.length < L →
        samplingLimit n ≤ (randbytes r 1).1.headD 0 →
        pwLoop alphabet (samplingLimit n) L (fuel+1) chars r =
          pwLoop alphabet (samplingLimit n) L fuel chars (randbytes r 1).2) ∧
    (∀ (alphabet : List Char) (L fuel : Nat) (chars : List Char) (r : HmacRng),
        alphabet.length = n → chars.length < L →
        (randbytes r 1).1.headD 0 < samplingLimit n →
        pwLoop alphabet (samplingLimit n) L (fuel+1) chars r =
          pwLoop alphabet (samplingLimit n) L fuel
            (chars ++ [alphabet.getD ((randbytes r 1).1.headD 0 % n) ' '])
            (randbytes r 1).2) ∧
    (∀ i, i < n →
        ((Finset.range 256).filter (fun b => b < samplingLimit n ∧ b % n = i)).card
          = samplingLimit n / n) ∧
    samplingLimit n / n = 256 / n := by
  have h0 : 0 < n := by omega
  have hq : ∀ m, m * n / n = m := fun m => by
    rw [Nat.mul_comm]
    exact Nat.mul_div_cancel_left m h0
  refine ⟨rfl, ?_, ?_, ?_, ?_, hq (256 / n)⟩
  · intro b _
    exact Nat.mod_lt b h0
  · intro alphabet L fuel chars r _ hclen hb
    simp only [pwLoop, if_pos hclen, if_pos hb]
  · intro alphabet L fuel chars r halpha hclen hb
    subst halpha
    simp only [pwLoop, if_pos hclen, if_neg (Nat.not_le.mpr hb)]
  · intro i hi
    have hle : samplingLimit n ≤ 256 := Nat.div_mul_le_self 256 n
    have hset : (Finset.range 256).filter (fun b => b < samplingLimit n ∧ b % n = i)
        = (Finset.range (samplingLimit n)).filter (fun b => b % n = i) := by
      ext b
      simp only [Finset.mem_filter, Finset.mem_range]
      constructor
      · rintro ⟨_, hb1, hb2⟩
        exact ⟨hb1, hb2⟩
      · rintro ⟨hb1, hb2⟩
        exact ⟨lt_of_lt_of_le hb1 hle, hb1, hb2⟩
    rw [hset]
    simp only [samplingLimit, hq (256 / n)]
    exact filter_mod_card n (256 / n) i h0 hi

/-- Closed instance of `sampling_step_unbiased` at alphabet size 10: the
limit is 250 and index 3 has exactly 25 accepted preimages. -/
theorem sampling_step_unbiased_witness :
    ((Finset.range 256).filter (fun b => b < samplingLimit 10 ∧ b % 10 = 3)).card
      = samplingLimit 10 / 10 :=
  (sampling_step_unbiased 10 (by decide) (by decide)).2.2.2.2.1 3 (by decide)

/-- C6 (amended): the base alphabet is the 62 ASCII letters (lowercase,
uppercase) and digits, the fixed symbol set is the listed one and has 29
characters, `build_alphabet` appends it exactly when `use_symbols` is
set, and excluding ambiguous characters removes every occurrence of `O`,
`0`, `I`, `l`, `1` from the assembled string. -/
theorem build_alphabet_spec :
    BASE_ALPHABET = "abcdefghijklmnopqrstuvwxyzABCDEFGHIJKLMNOPQRSTUVWXYZ0123456789" ∧
    BASE_ALPHABET.length = 62 ∧
    SYMBOLS = "!@#$%^&*()-_=+[]\x7b\x7d|;:,.<>?/~`" ∧
    SYMBOLS.length = 29 ∧
    (∀ us, build_alphabet us false = BASE_ALPHABET ++ (if us then SYMBOLS else "")) ∧
    (∀ us, (build_alphabet us true).data =
        (build_alphabet us false).data.filter (fun c => decide (c ∉ "O0Il1".data))) ∧
    (∀ us, ∀ c ∈ "O0Il1".data, c ∉ (build_alphabet us true).data) := by
  refine ⟨rfl, by decide, rfl, by decide, ?_, ?_, ?_⟩
  · intro us
    cases us <;> rfl
  · intro us
    cases us <;> decide
  · intro us
    cases us <;> decide

/-- Closed instance of `build_alphabet_spec`: symbols are appended and
the ambiguous letter `O` is gone after exclusion. -/
theorem build_alphabet_spec_witness :
    build_alphabet true false = BASE_ALPHABET ++ (if true then SYMBOLS else "") ∧
    'O' ∉ (build_alphabet true true).data :=
  ⟨build_alphabet_spec.2.2.2.2.1 true,
   build_alphabet_spec.2.2.2.2.2.2 true 'O' (by decide)⟩

/-- The symbol set of the code has 29 characters, refuting the claimed
30-character symbol set. -/
theorem symbols_length_not_thirty : SYMBOLS.length ≠ 30 := by decide

set_option maxRecDepth 8192 in
/-- C7: the spec's known values hold: `estimate_entropy_bits 8 62`
returns `8 * log2 62`, which lies within 0.005 of 47.63 (its value is
47.6335...), `estimate_search_space 4 10 = 10000` exactly,
`estimate_average_crack_time_seconds 10000 10 = 500`,
`format_duration 500 = "8.33 minutes"` and
`format_duration 0.5 = "< 1 second"`. -/
theorem estimator_known_values :
    estimate_entropy_bits 8 62 = .ok (8 * Real.logb 2 62) ∧
    (47.625 < 8 * Real.logb 2 62 ∧ 8 * Real.logb 2 62 < 47.635) ∧
    estimate_search_space 4 10 = 10000 ∧
    estimate_average_crack_time_seconds 10000 10 = .ok (.fin 500) ∧
    format_duration (.fin 500) = "8.33 minutes" ∧
    format_duration (.fin (1/2)) = "< 1 second" := by
  have hok : estimate_entropy_bits 8 62 = .ok (8 * Real.logb 2 62) := by
    unfold estimate_entropy_bits
    rw [if_neg (by norm_num), if_neg (by decide)]
    norm_num
  have hlog2 : 0 < Real.log 2 := Real.log_pos (by norm_num)
  have hlogb : Real.logb 2 62 = Real.log 62 / Real.log 2 := rfl
  have h1 : Real.log 2 + (162 : ℝ) * ((4 : ℝ) * Real.log 2) < (109 : ℝ) * Real.log 62 := by
    have hnat : 2 * (16:ℕ) ^ 162 < 62 ^ 109 := by norm_num
    have hcast : (2:ℝ) * (16:ℝ) ^ (162:ℕ) < (62:ℝ) ^ (109:ℕ) := by exact_mod_cast hnat
    have hlog := Real.log_lt_log (by positivity) hcast
    rw [Real.log_mul (by norm_num) (by positivity),
        show (16:ℝ) = 2 ^ (4:ℕ) by norm_num, Real.log_pow, Real.log_pow,
        Real.log_pow] at hlog
    exact_mod_cast hlog
  have h2 : (131 : ℝ) * Real.log 62 < (195 : ℝ) * ((4 : ℝ) * Real.log 2) := by
    have hnat : (62:ℕ) ^ 131 < 16 ^ 195 := by norm_num
    have hcast : (62:ℝ) ^ (131:ℕ) < (16:ℝ) ^ (195:ℕ) := by exact_mod_cast hnat
    have hlog := Real.log_lt_log (by positivity) hcast
    rw [show (16:ℝ) = 2 ^ (4:ℕ) by norm_num, Real.log_pow, Real.log_pow,
        Real.log_pow] at hlog
    exact_mod_cast hlog
  have hfl : ⌊(100 : ℚ) * (25 / 3)⌋ = 833 := by
    rw [Int.floor_eq_iff]
    constructor <;> norm_num
  have hfmt : fmt2 ((25 : ℚ) / 3) = "8.33" := by
    simp only [fmt2]
    rw [hfl]
    norm_num
    rfl
  have hdur : format_duration (.fin 500) = "8.33 minutes" := by
    simp only [format_duration]
    rw [if_neg (by norm_num)]
    simp only [durLoop, durUnits]
    rw [if_neg (by norm_num), if_neg (by norm_num), if_neg (by norm_num),
        if_pos (by norm_num : (60 : ℚ) ≤ 500),
        if_neg (by norm_num : ¬((500 : ℚ) / 60 < 2)),
        show ((500 : ℚ) / 60) = 25 / 3 by norm_num, hfmt]
    rfl
  have hhalf : format_duration (.fin (1/2)) = "< 1 second" := by
    simp only [format_duration]
    rw [if_pos (by norm_num)]
  refine ⟨hok, ⟨?_, ?_⟩, ?_, ?_, hdur, hhalf⟩
  · rw [hlogb, mul_div_assoc' 8 _ _, lt_div_iff₀ hlog2]
    linarith
  · rw [hlogb, mul_div_assoc' 8 _ _, div_lt_iff₀ hlog2]
    linarith
  · unfold estimate_search_space
    rw [if_neg (by norm_num), show Int.toNat 4 = 4 from rfl]
    norm_num
  · unfold estimate_average_crack_time_seconds
    rw [if_neg (by norm_num), if_neg (by decide)]
    norm_num

/-- The conversion-overflow bound is `2^1024 - 2^970`. -/
theorem floatConvBound_eq : floatConvBound = 2 ^ 1024 - 2 ^ 970 := by
  unfold floatConvBound
  rw [show (1024 : ℕ) = 256 * 4 from rfl, show (970 : ℕ) = 194 * 5 from rfl,
      pow_mul, pow_mul]
  norm_num

/-- The raise condition that `strengthBlock` inlines agrees with
`estimate_entropy_bits` itself. -/
theorem entropy_raise_condition (l A : Int) :
    estimate_entropy_bits l A = .error .overflowError ↔
      ¬(l ≤ 0 ∨ A ≤ 1) ∧ floatConvBound ≤ l := by
  unfold estimate_entropy_bits
  by_cases h1 : l ≤ 0 ∨ A ≤ 1
  · rw [if_pos h1]
    simp [h1]
  · rw [if_neg h1]
    by_cases h2 : floatConvBound ≤ l
    · rw [if_pos h2]
      simp [h1, h2]
    · rw [if_neg h2]
      simp [h1, h2]

/-- C8 (amended): the estimators signal degenerate inputs by fallback
values (0.0, 0, +infinity) rather than by raising, and
`estimate_search_space` is total with the exact arbitrary-precision
power; but `estimate_entropy_bits` and
`estimate_average_crack_time_seconds` are not total: on nondegenerate
inputs they raise `OverflowError` as soon as the int operand converted
to float (the length, resp. the search space) reaches `floatConvBound`
(2^1024 - 2^970), and below that bound they return the claimed exact
values. -/
theorem estimator_totality :
    (∀ l A : Int, l ≤ 0 ∨ A ≤ 1 →
        estimate_entropy_bits l A = .ok 0 ∧ estimate_search_space l A = 0) ∧
    (∀ l A : Int, 0 < l → 1 < A → l < floatConvBound →
        estimate_entropy_bits l A = .ok ((l : ℝ) * Real.logb 2 (A : ℝ))) ∧
    (∀ l A : Int, 0 < l → 1 < A → floatConvBound ≤ l →
        estimate_entropy_bits l A = .error .overflowError) ∧
    (∀ l A : Int, 0 < l → 1 < A → estimate_search_space l A = A ^ l.toNat) ∧
    (∀ (s : Int) (g : ℚ), s ≤ 0 ∨ g ≤ 0 →
        estimate_average_crack_time_seconds s g = .ok .inf) ∧
    (∀ (s : Int) (g : ℚ), 0 < s → 0 < g → s < floatConvBound →
        estimate_average_crack_time_seconds s g = .ok (.fin (1/2 * (s : ℚ) / g))) ∧
    (∀ (s : Int) (g : ℚ), 0 < s → 0 < g → floatConvBound ≤ s →
        estimate_average_crack_time_seconds s g = .error .overflowError) := by
  refine ⟨?_, ?_, ?_, ?_, ?_, ?_, ?_⟩
  · intro l A h
    constructor
    · unfold estimate_entropy_bits
      rw [if_pos h]
    · unfold estimate_search_space
      rw [if_pos h]
  · intro l A hl hA hb
    unfold estimate_entropy_bits
    rw [if_neg (by omega), if_neg (by omega)]
  · intro l A hl hA hb
    unfold estimate_entropy_bits
    rw [if_neg (by omega), if_pos hb]
  · intro l A hl hA
    unfold estimate_search_space
    rw [if_neg (by omega)]
  · intro s g h
    unfold estimate_average_crack_time_seconds
    rw [if_pos h]
  · intro s g hs hg hb
    have h : ¬(s ≤ 0 ∨ g ≤ 0) := by
      push_neg
      exact ⟨hs, hg⟩
    unfold estimate_average_crack_time_seconds
    rw [if_neg h, if_neg (by omega)]
  · intro s g hs hg hb
    have h : ¬(s ≤ 0 ∨ g ≤ 0) := by
      push_neg
      exact ⟨hs, hg⟩
    unfold estimate_average_crack_time_seconds
    rw [if_neg h, if_pos hb]

set_option maxRecDepth 8192 in
/-- Closed instance of `estimator_totality` covering every branch,
including the overflow branches at the conversion bound and at the
search space of the default alphabet with length 172. -/
theorem estimator_totality_witness :
    estimate_entropy_bits 0 62 = .ok 0 ∧
    estimate_search_space 5 1 = 0 ∧
    estimate_entropy_bits floatConvBound 62 = .error .overflowError ∧
    estimate_average_crack_time_seconds 0 10 = .ok .inf ∧
    estimate_average_crack_time_seconds 10000 10 =
      .ok (.fin (1/2 * ((10000 : Int) : ℚ) / 10)) ∧
    estimate_average_crack_time_seconds ((62 : Int) ^ 172) 10000000000 =
      .error .overflowError :=
  ⟨(estimator_totality.1 0 62 (Or.inl (by norm_num))).1,
   (estimator_totality.1 5 1 (Or.inr (by norm_num))).2,
   estimator_totality.2.2.1 floatConvBound 62 (by decide) (by norm_num) le_rfl,
   estimator_totality.2.2.2.2.1 0 10 (Or.inl (by norm_num)),
   estimator_totality.2.2.2.2.2.1 10000 10 (by norm_num) (by norm_num) (by decide),
   estimator_totality.2.2.2.2.2.2 ((62 : Int) ^ 172) 10000000000 (by decide)
     (by norm_num) (by decide)⟩

set_option maxRecDepth 8192 in
/-- The original totality claim fails on the code: at the search space
of the default 62-character alphabet and length 172, which exceeds the
double range, `0.5 * search_space` raises `OverflowError` instead of
returning `0.5 * search_space / guesses_per_second`. -/
theorem crack_time_overflow_counterexample :
    estimate_average_crack_time_seconds ((62 : Int) ^ 172) 10000000000 =
      .error .overflowError := by
  have h1 : ¬((62 : Int) ^ 172 ≤ 0 ∨ (10000000000 : ℚ) ≤ 0) := by
    push_neg
    exact ⟨by positivity, by norm_num⟩
  have h2 : floatConvBound ≤ (62 : Int) ^ 172 := by decide
  unfold estimate_average_crack_time_seconds
  rw [if_neg h1, if_pos h2]

/-- C2: two `HmacRng` instances that agree on seed, context and counter
produce byte-for-byte identical outputs for the same sequence of
`randbytes` calls, and drive `bytes_to_password_hmac` to identical
password sequences for the same sequence of generation requests. -/
theorem deterministic_same_stream (r1 r2 : HmacRng) (hk : r1.key = r2.key)
    (hc : r1.context = r2.context) (hn : r1.counter = r2.counter) :
    (∀ ns : List Nat, runCalls r1 ns = runCalls r2 ns) ∧
    (∀ (fuel : Nat) (alphabet : String) (Ls : List Nat),
        genSeq fuel alphabet r1 Ls = genSeq fuel alphabet r2 Ls) := by
  obtain ⟨k1, c1, n1⟩ := r1
  obtain ⟨k2, c2, n2⟩ := r2
  subst hk
  subst hc
  subst hn
  exact ⟨fun _ => rfl, fun _ _ _ => rfl⟩

/-- Closed instance of `deterministic_same_stream` on a concrete seed. -/
theorem deterministic_same_stream_witness :
    runCalls ⟨List.replicate 32 0, defaultContext, 0⟩ [1, 2] =
      runCalls ⟨List.replicate 32 0, defaultContext, 0⟩ [1, 2] :=
  (deterministic_same_stream ⟨List.replicate 32 0, defaultContext, 0⟩
    ⟨List.replicate 32 0, defaultContext, 0⟩ rfl rfl rfl).1 [1, 2]

/-- C10: `generate_password_hmac` constructs a fresh `HmacRng` with
counter 0 from the seed on every call — in the embedding it is literally
a pure function of `(fuel, length, use_symbols, exclude_ambiguous,
seed)`, so equal arguments give the identical result and repeated calls
restart the stream at counter 0 — while the `main` hmac loop
(`hmacGenLoop`) threads one advancing `HmacRng` state through all
`count` passwords. -/
theorem generate_password_hmac_fresh_rng :
    (∀ fuel L us ea seed,
        generate_password_hmac fuel L us ea seed =
          (bytes_to_password_hmac fuel L (build_alphabet us ea)
            ⟨seed, defaultContext, 0⟩).map Prod.fst) ∧
    (∀ fuel L alphabet k r,
        hmacGenLoop fuel L alphabet (k + 1) r =
          match bytes_to_password_hmac fuel L alphabet r with
          | .error _ => none
          | .ok (pw, r') =>
              (hmacGenLoop fuel L alphabet k r').map (fun t => .pwLine pw :: t)) :=
  ⟨fun _ _ _ _ _ => rfl, fun _ _ _ _ _ => rfl⟩

theorem wordsToBytes_cons (x : Nat) (xs : List Nat) :
    wordsToBytes (x :: xs) = wordToBytes x ++ wordsToBytes xs := rfl

theorem wordsToBytes_length (ws : List Nat) : (wordsToBytes ws).length = 4 * ws.length := by
  induction ws with
  | nil => rfl
  | cons x xs ih =>
      rw [wordsToBytes_cons, List.length_append, ih]
      simp [wordToBytes]
      omega

theorem sha256_length (msg : List Nat) : (sha256 msg).length = 32 := by
  simp only [sha256]
  rw [wordsToBytes_length]
  rfl

theorem hmacSha256_length (key msg : List Nat) : (hmacSha256 key msg).length = 32 := by
  simp only [hmacSha256]
  exact sha256_length _

theorem hmacBlock_length (key ctx : List Nat) (c : Nat) :
    (hmacBlock key ctx c).length = 32 :=
  hmacSha256_length _ _

theorem blocksConcat_length (key ctx : List Nat) :
    ∀ (q c : Nat), (blocksConcat key ctx c q).length = 32 * q := by
  intro q
  induction q with
  | zero => intro c; rfl
  | succ q ih =>
      intro c
      show (hmacBlock key ctx c ++ blocksConcat key ctx (c + 1) q).length = 32 * (q + 1)
      rw [List.length_append, hmacBlock_length, ih]
      omega

theorem blocksConcat_add (key ctx : List Nat) :
    ∀ (p c q : Nat),
      blocksConcat key ctx c (p + q) =
        blocksConcat key ctx c p ++ blocksConcat key ctx (c + p) q := by
  intro p
  induction p with
  | zero =>
      intro c q
      simp [blocksConcat]
  | succ p ih =>
      intro c q
      rw [show p + 1 + q = (p + q) + 1 from by omega]
      show hmacBlock key ctx c ++ blocksConcat key ctx (c + 1) (p + q) = _
      rw [ih (c + 1) q, show c + 1 + p = c + (p + 1) from by omega]
      show _ = (hmacBlock key ctx c ++ blocksConcat key ctx (c + 1) p) ++
          blocksConcat key ctx (c + (p + 1)) q
      rw [List.append_assoc]

theorem rbLoop_eq (key ctx : List Nat) (n : Nat) :
    ∀ (fuel c : Nat) (out : List Nat),
      needBlocks (n - out.length) ≤ fuel →
      rbLoop key ctx n fuel c out =
        (out ++ blocksConcat key ctx c (needBlocks (n - out.length)),
         c + needBlocks (n - out.length)) := by
  intro fuel
  induction fuel with
  | zero =>
      intro c out h
      have hm : n - out.length = 0 := by
        unfold needBlocks at h
        omega
      rw [hm]
      have hle : ¬ out.length < n := by omega
      simp [rbLoop, hle, blocksConcat, needBlocks]
  | succ f ih =>
      intro c out h
      by_cases hlt : out.length < n
      · have hstep :
            needBlocks (n - out.length) = needBlocks (n - (out.length + 32)) + 1 := by
          unfold needBlocks
          omega
        have hloop : rbLoop key ctx n (f + 1) c out =
            rbLoop key ctx n f (c + 1) (out ++ hmacBlock key ctx c) := by
          simp [rbLoop, hlt]
        rw [hloop, ih (c + 1) (out ++ hmacBlock key ctx c)
            (by rw [List.length_append, hmacBlock_length]; unfold needBlocks at h ⊢; omega)]
        rw [List.length_append, hmacBlock_length, hstep]
        refine Prod.ext ?_ ?_
        · show (out ++ hmacBlock key ctx c) ++
              blocksConcat key ctx (c + 1) (needBlocks (n - (out.length + 32))) =
            out ++ (hmacBlock key ctx c ++
              blocksConcat key ctx (c + 1) (needBlocks (n - (out.length + 32))))
          rw [List.append_assoc]
        · show c + 1 + needBlocks (n - (out.length + 32)) =
            c + (needBlocks (n - (out.length + 32)) + 1)
          omega
      · have hm : n - out.length = 0 := by omega
        rw [hm]
        simp [rbLoop, hlt, blocksConcat, needBlocks]

/-- Characterization of `randbytes`: it yields the first `n` bytes of the
`needBlocks n` fresh blocks generated from the current counter, and
advances the counter by exactly that many blocks. -/
theorem randbytes_take_blocks (r : HmacRng) (n : Nat) :
    randbytes r n =
      ((blocksConcat r.key r.context r.counter (needBlocks n)).take n,
       ⟨r.key, r.context, r.counter + needBlocks n⟩) := by
  have h := rbLoop_eq r.key r.context n n r.counter []
      (by simp only [List.length_nil, Nat.sub_zero]; unfold needBlocks; omega)
  simp only [List.length_nil, Nat.sub_zero] at h
  simp only [randbytes, h, List.nil_append]

/-- C5 (amended): `randbytes n` generates `ceil(n/32)` fresh HMAC blocks
starting at the current counter, returns their first `n` bytes, and
discards the leftover bytes of the last block instead of buffering them
for the next call; consequently `randbytes a` followed by `randbytes b`
coincides with a single `randbytes (a+b)` from the same state whenever
`a` is a multiple of the 32-byte block size, but not in general. -/
theorem randbytes_block_structure :
    (∀ (r : HmacRng) (n : Nat),
        randbytes r n =
          ((blocksConcat r.key r.context r.counter (needBlocks n)).take n,
           ⟨r.key, r.context, r.counter + needBlocks n⟩)) ∧
    (∀ (r : HmacRng) (a b : Nat), 32 ∣ a →
        (randbytes r a).1 ++ (randbytes (randbytes r a).2 b).1 =
            (randbytes r (a + b)).1 ∧
        (randbytes (randbytes r a).2 b).2 = (randbytes r (a + b)).2) := by
  refine ⟨randbytes_take_blocks, ?_⟩
  rintro r a b ⟨k, rfl⟩
  obtain ⟨key, ctx, c⟩ := r
  have hnba : needBlocks (32 * k) = k := by unfold needBlocks; omega
  have hnb : needBlocks (32 * k + b) = k + needBlocks b := by unfold needBlocks; omega
  simp only [randbytes_take_blocks, hnba, hnb]
  have hlen : (blocksConcat key ctx c k).length = 32 * k := blocksConcat_length key ctx k c
  constructor
  · rw [blocksConcat_add key ctx k c (needBlocks b),
        List.take_append_eq_append_take, hlen,
        show 32 * k + b - 32 * k = b from by omega,
        @List.take_of_length_le _ (32 * k) (blocksConcat key ctx c k) (le_of_eq hlen),
        @List.take_of_length_le _ (32 * k + b) (blocksConcat key ctx c k)
          (by rw [hlen]; omega)]
  · show (⟨key, ctx, c + k + needBlocks b⟩ : HmacRng) = ⟨key, ctx, c + (k + needBlocks b)⟩
    rw [show c + k + needBlocks b = c + (k + needBlocks b) from by omega]

/-- Closed instance of `randbytes_block_structure`: a block-aligned split
of 33 bytes into 32 + 1 matches the single 33-byte call. -/
theorem randbytes_block_structure_witness :
    (randbytes ⟨List.replicate 32 0, defaultContext, 0⟩ 32).1 ++
        (randbytes (randbytes ⟨List.replicate 32 0, defaultContext, 0⟩ 32).2 1).1 =
      (randbytes ⟨List.replicate 32 0, defaultContext, 0⟩ 33).1 :=
  (randbytes_block_structure.2 ⟨List.replicate 32 0, defaultContext, 0⟩ 32 1
    ⟨1, by omega⟩).1

set_option maxRecDepth 8192 in
/-- On the all-zero 32-byte seed, `randbytes 1` twice does not reproduce
`randbytes 2` from a fresh instance: the second byte comes from block 1
instead of the unread second byte of block 0, so leftover block bytes
are not carried over and the stream is not call-granularity independent. -/
theorem randbytes_split_counterexample :
    (randbytes ⟨List.replicate 32 0, defaultContext, 0⟩ 1).1 ++
        (randbytes (randbytes ⟨List.replicate 32 0, defaultContext, 0⟩ 1).2 1).1 ≠
      (randbytes ⟨List.replicate 32 0, defaultContext, 0⟩ 2).1 := by decide

theorem pwLoop_ok_spec (alphabet : List Char) (limit L : Nat)
    (h0 : 0 < alphabet.length) :
    ∀ (fuel : Nat) (chars : List Char) (r : HmacRng) (out : List Char) (r' : HmacRng),
      chars.length ≤ L → (∀ c ∈ chars, c ∈ alphabet) →
      pwLoop alphabet limit L fuel chars r = .ok (out, r') →
      out.length = L ∧ ∀ c ∈ out, c ∈ alphabet := by
  intro fuel
  induction fuel with
  | zero =>
      intro chars r out r' hle hmem heq
      by_cases hlt : chars.length < L
      · simp [pwLoop, hlt] at heq
      · simp [pwLoop, hlt] at heq
        obtain ⟨h1, _⟩ := heq
        subst h1
        exact ⟨by omega, hmem⟩
  | succ f ih =>
      intro chars r out r' hle hmem heq
      by_cases hlt : chars.length < L
      · simp only [pwLoop, if_pos hlt] at heq
        by_cases hb : limit ≤ (randbytes r 1).1.headD 0
        · rw [if_pos hb] at heq
          exact ih _ _ _ _ hle hmem heq
        · rw [if_neg hb] at heq
          refine ih _ _ _ _ ?_ ?_ heq
          · rw [List.length_append]
            simp
            omega
          · intro c hc
            rcases List.mem_append.mp hc with h | h
            · exact hmem c h
            · simp only [List.mem_singleton] at h
              subst h
              exact getD_mem_of_lt _ _ _ (Nat.mod_lt _ h0)
      · simp [pwLoop, hlt] at heq
        obtain ⟨h1, _⟩ := heq
        subst h1
        exact ⟨by omega, hmem⟩

/-- C4: in both generation modes, over any alphabet built by
`build_alphabet`, a generated password has exactly the requested number
of characters and draws every character from that alphabet: the
secrets-based `generate_password` under the capability contract on
`secrets.choice`, and `bytes_to_password_hmac` whenever it completes. -/
theorem password_length_and_alphabet :
    (∀ (L : Nat) (us ea : Bool) (choice : Nat → Nat),
        (∀ i, choice i < (build_alphabet us ea).length) →
        (generate_password L us ea choice).length = L ∧
        ∀ c ∈ (generate_password L us ea choice).data,
          c ∈ (build_alphabet us ea).data) ∧
    (∀ (fuel L : Nat) (us ea : Bool) (rng : HmacRng) (pw : String) (rng' : HmacRng),
        bytes_to_password_hmac fuel L (build_alphabet us ea) rng = .ok (pw, rng') →
        pw.length = L ∧ ∀ c ∈ pw.data, c ∈ (build_alphabet us ea).data) := by
  constructor
  · intro L us ea choice hchoice
    constructor
    · show ((List.range L).map _).length = L
      rw [List.length_map, List.length_range]
    · intro c hc
      have hc' : c ∈ (List.range L).map
          (fun i => (build_alphabet us ea).data.getD (choice i) ' ') := hc
      obtain ⟨i, _, rfl⟩ := List.mem_map.mp hc'
      exact getD_mem_of_lt _ _ _ (hchoice i)
  · intro fuel L us ea rng pw rng' heq
    unfold bytes_to_password_hmac at heq
    by_cases hsmall : (build_alphabet us ea).length < 2
    · rw [if_pos hsmall] at heq
      simp at heq
    · rw [if_neg hsmall] at heq
      cases hml : pwLoop (build_alphabet us ea).data
          (samplingLimit (build_alphabet us ea).length) L fuel [] rng with
      | error e => rw [hml] at heq; simp at heq
      | ok p =>
          obtain ⟨chars, rr⟩ := p
          rw [hml] at heq
          simp only [Except.ok.injEq, Prod.mk.injEq] at heq
          obtain ⟨hpw, _⟩ := heq
          have hdl : (build_alphabet us ea).data.length = (build_alphabet us ea).length :=
            rfl
          have hspec := pwLoop_ok_spec (build_alphabet us ea).data
            (samplingLimit (build_alphabet us ea).length) L (by omega)
            fuel [] rng chars rr (by simp) (by simp) hml
          rw [← hpw]
          exact hspec

set_option maxRecDepth 8192 in
/-- Closed instance of `password_length_and_alphabet`: a secrets-mode
password of length 3 under the constant-zero choice oracle, and the
hmac-mode run of length 1 on the all-zero seed, which accepts the first
drawn byte 212 and produces the password "A". -/
theorem password_length_and_alphabet_witness :
    ((generate_password 3 false false (fun _ => 0)).length = 3 ∧
      ∀ c ∈ (generate_password 3 false false (fun _ => 0)).data,
        c ∈ (build_alphabet false false).data) ∧
    (("A" : String).length = 1 ∧
      ∀ c ∈ ("A" : String).data, c ∈ (build_alphabet false false).data) :=
  ⟨password_length_and_alphabet.1 3 false false (fun _ => 0)
     (fun _ => by show 0 < (build_alphabet false false).length; decide),
   password_length_and_alphabet.2 2 1 false false
     ⟨List.replicate 32 0, defaultContext, 0⟩ "A"
     ⟨List.replicate 32 0, defaultContext, 1⟩ (by rfl)⟩

theorem strengthBlock_no_pw (args : Args) (alpha : String)
    (strength : List OutLine) (h : strengthBlock args alpha = .ok strength) :
    strength.countP (fun l => isPwLine l) = 0 := by
  unfold strengthBlock at h
  by_cases hns : args.no_strength
  · rw [if_pos hns] at h
    simp only [Except.ok.injEq] at h
    subst h
    rfl
  · rw [if_neg hns] at h
    by_cases hov : ¬(args.length ≤ 0 ∨ (alpha.length : Int) ≤ 1) ∧
        floatConvBound ≤ args.length
    · rw [if_pos hov] at h
      simp at h
    · rw [if_neg hov] at h
      cases hcr : estimate_average_crack_time_seconds
          (estimate_search_space args.length (alpha.length : Int))
          (args.rate.getD (scenarioRate args.scenario)) with
      | error e =>
          simp only [hcr] at h
          simp at h
      | ok avg =>
          simp only [hcr, Except.ok.injEq] at h
          subst h
          rfl

/-- C3 (amended): every invalid configuration is rejected with exit code
2 and never produces a password line, and the output of a rejected run
does not depend on the randomness oracles (no randomness is consumed
before rejection).  Nonpositive count and nonpositive length are
rejected before any output at all.  In hmac mode an invalid seed
(non-hex string, or a decoded length other than 32 bytes) is rejected
only after the strength report has been printed, unless `--no-strength`
suppressed it; but when the strength computation itself overflows the
double range (its `OverflowError` surfaces, e.g. at the default
alphabet with length 172), the run instead crashes with an uncaught
exception — exit code 1, traceback on stderr — before any output,
so the seed is then never validated at all.  The built-in alphabets
always have at least 2 characters, so the alphabet-too-small rejection
is unreachable from `main`. -/
theorem invalid_config_rejection (args : Args) (choice choice' : Nat → Nat)
    (urandom urandom' : List Nat) (fuel fuel' : Nat) :
    (args.count ≤ 0 →
        mainModel args choice urandom fuel = some (.exited [.errLine errCountMsg] 2)) ∧
    (0 < args.count → args.length ≤ 0 →
        mainModel args choice urandom fuel = some (.exited [.errLine errLengthMsg] 2)) ∧
    (∀ e, 0 < args.count → 0 < args.length →
        strengthBlock args (build_alphabet args.symbols args.exclude_ambiguous) = .error e →
        mainModel args choice urandom fuel = some (.crashed [] e)) ∧
    (∀ s strength, 0 < args.count → 0 < args.length → args.mode = .hmacMode →
        args.seed_hex = some s →
        strengthBlock args (build_alphabet args.symbols args.exclude_ambiguous) = .ok strength →
        bytesFromHex s = none →
        mainModel args choice urandom fuel =
          some (.exited (strength ++ [.errLine errSeedHexMsg]) 2)) ∧
    (∀ s strength seed, 0 < args.count → 0 < args.length → args.mode = .hmacMode →
        args.seed_hex = some s →
        strengthBlock args (build_alphabet args.symbols args.exclude_ambiguous) = .ok strength →
        bytesFromHex s = some seed → seed.length ≠ 32 →
        mainModel args choice urandom fuel =
          some (.exited (strength ++ [.errLine errSeedLenMsg]) 2)) ∧
    (∀ out, mainModel args choice urandom fuel = some (.exited out 2) →
        out.countP (fun l => isPwLine l) = 0 ∧
        mainModel args choice' urandom' fuel' = some (.exited out 2)) ∧
    (∀ out e, mainModel args choice urandom fuel = some (.crashed out e) →
        out = [] ∧
        mainModel args choice' urandom' fuel' = some (.crashed out e)) ∧
    (∀ us2 ea2, 2 ≤ (build_alphabet us2 ea2).length) := by
  obtain ⟨L, cnt, sy, ea, mo, sh, sc, ra, ns⟩ := args
  refine ⟨?_, ?_, ?_, ?_, ?_, ?_, ?_, ?_⟩
  · intro h
    have h' : cnt ≤ 0 := h
    simp [mainModel, h']
  · intro h1 h2
    have h1' : (0 : Int) < cnt := h1
    have h2' : L ≤ 0 := h2
    have hc : ¬ cnt ≤ 0 := by omega
    simp [mainModel, hc, h2']
  · intro e h1 h2 hsb
    have h1' : (0 : Int) < cnt := h1
    have h2' : (0 : Int) < L := h2
    have hsb' : strengthBlock ⟨L, cnt, sy, ea, mo, sh, sc, ra, ns⟩
        (build_alphabet sy ea) = .error e := hsb
    have hc : ¬ cnt ≤ 0 := by omega
    have hl : ¬ L ≤ 0 := by omega
    simp [mainModel, hc, hl, hsb']
  · intro s strength h1 h2 hmo hsh hsb hhex
    subst hmo
    subst hsh
    have h1' : (0 : Int) < cnt := h1
    have h2' : (0 : Int) < L := h2
    have hsb' : strengthBlock ⟨L, cnt, sy, ea, .hmacMode, some s, sc, ra, ns⟩
        (build_alphabet sy ea) = .ok strength := hsb
    have hc : ¬ cnt ≤ 0 := by omega
    have hl : ¬ L ≤ 0 := by omega
    simp [mainModel, hc, hl, hsb', hhex, hmacSeedRun]
  · intro s strength seed h1 h2 hmo hsh hsb hhex h32
    subst hmo
    subst hsh
    have h1' : (0 : Int) < cnt := h1
    have h2' : (0 : Int) < L := h2
    have hsb' : strengthBlock ⟨L, cnt, sy, ea, .hmacMode, some s, sc, ra, ns⟩
        (build_alphabet sy ea) = .ok strength := hsb
    have h32' : seed.length ≠ 32 := h32
    have hc : ¬ cnt ≤ 0 := by omega
    have hl : ¬ L ≤ 0 := by omega
    simp [mainModel, hc, hl, hsb', hhex, hmacSeedRun, h32']
  · intro out heq
    by_cases hc : cnt ≤ 0
    · have h1 : mainModel ⟨L, cnt, sy, ea, mo, sh, sc, ra, ns⟩ choice urandom fuel
          = some (.exited [.errLine errCountMsg] 2) := by simp [mainModel, hc]
      rw [h1] at heq
      simp only [Option.some.injEq, RunOutcome.exited.injEq] at heq
      obtain ⟨h2, _⟩ := heq
      subst h2
      exact ⟨rfl, by simp [mainModel, hc]⟩
    · by_cases hl : L ≤ 0
      · have h1 : mainModel ⟨L, cnt, sy, ea, mo, sh, sc, ra, ns⟩ choice urandom fuel
            = some (.exited [.errLine errLengthMsg] 2) := by simp [mainModel, hc, hl]
        rw [h1] at heq
        simp only [Option.some.injEq, RunOutcome.exited.injEq] at heq
        obtain ⟨h2, _⟩ := heq
        subst h2
        exact ⟨rfl, by simp [mainModel, hc, hl]⟩
      · cases hsb : strengthBlock ⟨L, cnt, sy, ea, mo, sh, sc, ra, ns⟩
            (build_alphabet sy ea) with
        | error e =>
            exfalso
            have h1 : mainModel ⟨L, cnt, sy, ea, mo, sh, sc, ra, ns⟩ choice urandom fuel
                = some (.crashed [] e) := by simp [mainModel, hc, hl, hsb]
            rw [h1] at heq
            simp at heq
        | ok strength =>
            cases mo with
            | secretsMode =>
                exfalso
                simp [mainModel, hc, hl, hsb] at heq
            | hmacMode =>
                cases sh with
                | none =>
                    exfalso
                    simp [mainModel, hc, hl, hsb, Option.map_eq_some'] at heq
                | some s =>
                    cases hhex : bytesFromHex s with
                    | none =>
                        have h1 : mainModel ⟨L, cnt, sy, ea, .hmacMode, some s, sc, ra, ns⟩
                            choice urandom fuel
                            = some (.exited (strength ++ [.errLine errSeedHexMsg]) 2) := by
                          simp [mainModel, hc, hl, hsb, hhex, hmacSeedRun]
                        rw [h1] at heq
                        simp only [Option.some.injEq, RunOutcome.exited.injEq] at heq
                        obtain ⟨h2, _⟩ := heq
                        subst h2
                        refine ⟨?_, ?_⟩
                        · rw [List.countP_append,
                            strengthBlock_no_pw ⟨L, cnt, sy, ea, .hmacMode, some s, sc, ra, ns⟩
                              (build_alphabet sy ea) strength hsb]
                          rfl
                        · simp [mainModel, hc, hl, hsb, hhex, hmacSeedRun]
                    | some seed =>
                        by_cases h32 : seed.length = 32
                        · exfalso
                          have hne : ¬ (seed.length ≠ 32) := by omega
                          simp [mainModel, hc, hl, hsb, hhex, hmacSeedRun, hne,
                            Option.map_eq_some'] at heq
                        · have h32' : seed.length ≠ 32 := h32
                          have h1 : mainModel ⟨L, cnt, sy, ea, .hmacMode, some s, sc, ra, ns⟩
                              choice urandom fuel
                              = some (.exited (strength ++ [.errLine errSeedLenMsg]) 2) := by
                            simp [mainModel, hc, hl, hsb, hhex, hmacSeedRun, h32']
                          rw [h1] at heq
                          simp only [Option.some.injEq, RunOutcome.exited.injEq] at heq
                          obtain ⟨h2, _⟩ := heq
                          subst h2
                          refine ⟨?_, ?_⟩
                          · rw [List.countP_append,
                              strengthBlock_no_pw ⟨L, cnt, sy, ea, .hmacMode, some s, sc, ra, ns⟩
                                (build_alphabet sy ea) strength hsb]
                            rfl
                          · simp [mainModel, hc, hl, hsb, hhex, hmacSeedRun, h32']
  · intro out e heq
    by_cases hc : cnt ≤ 0
    · have h1 : mainModel ⟨L, cnt, sy, ea, mo, sh, sc, ra, ns⟩ choice urandom fuel
          = some (.exited [.errLine errCountMsg] 2) := by simp [mainModel, hc]
      rw [h1] at heq
      simp at heq
    · by_cases hl : L ≤ 0
      · have h1 : mainModel ⟨L, cnt, sy, ea, mo, sh, sc, ra, ns⟩ choice urandom fuel
            = some (.exited [.errLine errLengthMsg] 2) := by simp [mainModel, hc, hl]
        rw [h1] at heq
        simp at heq
      · cases hsb : strengthBlock ⟨L, cnt, sy, ea, mo, sh, sc, ra, ns⟩
            (build_alphabet sy ea) with
        | error e2 =>
            have h1 : mainModel ⟨L, cnt, sy, ea, mo, sh, sc, ra, ns⟩ choice urandom fuel
                = some (.crashed [] e2) := by simp [mainModel, hc, hl, hsb]
            rw [h1] at heq
            simp only [Option.some.injEq, RunOutcome.crashed.injEq] at heq
            obtain ⟨rfl, -⟩ := heq
            cases e
            cases e2
            exact ⟨rfl, by simp [mainModel, hc, hl, hsb]⟩
        | ok strength =>
            exfalso
            cases mo with
            | secretsMode =>
                simp [mainModel, hc, hl, hsb] at heq
            | hmacMode =>
                cases sh with
                | none =>
                    simp [mainModel, hc, hl, hsb, Option.map_eq_some'] at heq
                | some s =>
                    cases hhex : bytesFromHex s with
                    | none =>
                        simp [mainModel, hc, hl, hsb, hhex, hmacSeedRun] at heq
                    | some seed =>
                        by_cases h32 : seed.length = 32
                        · have hne : ¬ (seed.length ≠ 32) := by omega
                          simp [mainModel, hc, hl, hsb, hhex, hmacSeedRun, hne,
                            Option.map_eq_some'] at heq
                        · have h32' : seed.length ≠ 32 := h32
                          simp [mainModel, hc, hl, hsb, hhex, hmacSeedRun, h32'] at heq
  · intro us2 ea2
    cases us2 <;> cases ea2 <;> decide

set_option maxRecDepth 8192 in
/-- Closed instance of `invalid_config_rejection`: a zero count is
rejected with only the count error line and exit code 2, and the
overflowing strength computation at length 172 crashes the run with no
output before the invalid seed is ever examined. -/
theorem invalid_config_rejection_witness :
    mainModel ⟨8, 0, false, false, .secretsMode, none, .offlineFast, none, false⟩
        (fun _ => 0) [] 0 = some (.exited [.errLine errCountMsg] 2) ∧
    mainModel ⟨172, 1, false, false, .hmacMode, some ("zz"), .offlineFast, none, false⟩
        (fun _ => 0) [] 0 = some (.crashed [] .overflowError) :=
  ⟨(invalid_config_rejection
      ⟨8, 0, false, false, .secretsMode, none, .offlineFast, none, false⟩
      (fun _ => 0) (fun _ => 0) [] [] 0 0).1 (by decide),
   (invalid_config_rejection
      ⟨172, 1, false, false, .hmacMode, some ("zz"), .offlineFast, none, false⟩
      (fun _ => 0) (fun _ => 0) [] [] 0 0).2.2.1 .overflowError (by decide) (by decide)
     (by rfl)⟩

set_option maxRecDepth 8192 in
/-- A run with a syntactically invalid hmac seed and the strength report
enabled prints the four strength-report lines before the seed error: the
rejected request does emit partial output, refuting the claim that a
rejected request emits no strength report. -/
theorem strength_printed_before_seed_rejection :
    (mainModel ⟨8, 1, false, false, .hmacMode, some ("zz"), .offlineFast, none, false⟩
        (fun _ => 0) [] 0).map
      (fun o => ((outcomeLines o).map lineTag, outcomeCode o)) =
      some ([.alphaT, .entropyT, .scenT, .blankT, .errT], 2) := by decide

end Pwgen
